import Mathlib

/-!
Shallow embedding of the `json_parse` repository (a JSON tokenizer and
recursive-descent parser written in Rust) and proofs about its behaviour.

Conventions of the embedding:
* Rust's `Peekable<Chars>` / `Peekable<Iter<Token>>` cursors become explicit
  `List Char` / `List Token` arguments; each function returns the unconsumed
  remainder of its input alongside its result.
* Rust `u32` arithmetic is `Nat` with an explicit `% 2^32` at each operation;
  the `as i32` cast is `toSigned` (two's-complement reinterpretation into `Int`).
* `f64` payloads are represented by the literal text that the Rust code hands
  to `str::parse::<f64>` (the parse itself is a fixed function of that text,
  so equality of texts is equality of the resulting floats).
* Recursive loops take an explicit fuel argument so that every definition is
  a computable structural recursion; the public wrappers supply fuel that is
  provably sufficient for the given input.
-/

namespace JsonParse

/-- Tokens produced by the lexer (`lex.rs`, `enum Token`).  The `Float`
payload is the pre-`parse::<f64>` text (see module docstring). -/
inductive Token where
  | ObjectStart
  | ObjectEnd
  | ArrayStart
  | ArrayEnd
  | True
  | False
  | Null
  | Comma
  | Colon
  | Whitespace
  | Integer (n : Int)
  | Float (text : String)
  | String (s : String)
  | NoMoreTokens
deriving DecidableEq, Repr

/-- Embedding of `enum LexError` from `lex.rs`. -/
inductive LexError where
  | InvalidToken
deriving DecidableEq, Repr

/-- Embedding of Rust's `char::to_digit(radix)`: map `'0'..='9'` to 0–9 and
letters to 10–35, then accept the result only when it is below the radix. -/
def toDigit (radix : Nat) (c : Char) : Option Nat :=
  let d :=
    if '0' ≤ c ∧ c ≤ '9' then some (c.toNat - '0'.toNat)
    else if 'a' ≤ c ∧ c ≤ 'z' then some (c.toNat - 'a'.toNat + 10)
    else if 'A' ≤ c ∧ c ≤ 'Z' then some (c.toNat - 'A'.toNat + 10)
    else none
  d.bind (fun d => if d < radix then some d else none)

/-- The `while let Some(Some(digit)) = chars.peek().map(|c| c.to_digit(11))`
loop body of `lex_digits`: accumulate `digits = digits * 10 + digit` in
`u32` (wrapping) arithmetic, consuming every character that is a digit in
radix 11 (note: radix 11, as in the source, so `'a'`/`'A'` count as 10). -/
def digitsLoop (acc : Nat) : List Char → Nat × List Char
  | [] => (acc, [])
  | c :: rest =>
    match toDigit 11 c with
    | some d => digitsLoop ((acc * 10 + d) % 4294967296) rest
    | none => (acc, c :: rest)

/-- Two's-complement reinterpretation of a `u32` value as an `i32`
(the `digits as i32` cast in `lex_digits`). -/
def toSigned (v : Nat) : Int :=
  if v < 2147483648 then (v : Int) else (v : Int) - 4294967296

/-- Embedding of `lex_digits` from `lex.rs`.  The guard
`chars.peek().map(|c| c.is_digit(10)).is_none()` errors only when the input
is exhausted (the computed `is_digit(10)` boolean is discarded by
`is_none()`); then the radix-11 accumulation loop runs. -/
def lex_digits (cs : List Char) : Except LexError (Token × List Char) :=
  if ((cs.head?.map (fun c => (toDigit 10 c).isSome)).isNone : Bool) then
    .error .InvalidToken
  else
    let p := digitsLoop 0 cs
    .ok (.Integer (toSigned p.1), p.2)

/-- Embedding of `lex_number` from `lex.rs`: integer digit run, optionally `'.'` and a
second digit run; on the fractional path the two accumulated `i32` values
are printed with `to_string`, joined with `"."`, and handed to
`parse::<f64>`.  For text of the shape `<int>.<int>` that parse fails
exactly when the fractional `i32` is negative (an embedded `'-'`), which is
how the final `if let Ok(f) = ... .parse::<f64>()` check is modelled. -/
def lex_number (cs : List Char) : Except LexError (Token × List Char) :=
  match lex_digits cs with
  | .ok (.Integer integer, rest) =>
    match rest with
    | '.' :: rest2 =>
      match lex_digits rest2 with
      | .ok (.Integer decimal, rest3) =>
        if decimal < 0 then .error .InvalidToken
        else .ok (.Float (toString integer ++ "." ++ toString decimal), rest3)
      | _ => .error .InvalidToken
    | _ => .ok (.Integer integer, rest)
  | _ => .error .InvalidToken

/-- The scan loop of `lex_string`: consume characters, pushing each onto the
accumulator, until a `'"'` (which is consumed and terminates) or the end of
input (an error). -/
def strLoop (acc : List Char) : List Char → Except LexError (Token × List Char)
  | [] => .error .InvalidToken
  | c :: rest =>
    if c = '"' then .ok (.String (String.mk acc), rest)
    else strLoop (acc ++ [c]) rest

/-- Embedding of `lex_string` from `lex.rs`: require the opening quote, then scan. -/
def lex_string (cs : List Char) : Except LexError (Token × List Char) :=
  match cs with
  | '"' :: rest => strLoop [] rest
  | _ => .error .InvalidToken

/-- Embedding of `lex_true` from `lex.rs`: four `next()` calls matched against `t r u e`. -/
def lex_true (cs : List Char) : Except LexError (Token × List Char) :=
  match cs with
  | 't' :: 'r' :: 'u' :: 'e' :: rest => .ok (.True, rest)
  | _ => .error .InvalidToken

/-- Embedding of `lex_false` from `lex.rs`. -/
def lex_false (cs : List Char) : Except LexError (Token × List Char) :=
  match cs with
  | 'f' :: 'a' :: 'l' :: 's' :: 'e' :: rest => .ok (.False, rest)
  | _ => .error .InvalidToken

/-- Embedding of `lex_null` from `lex.rs`. -/
def lex_null (cs : List Char) : Except LexError (Token × List Char) :=
  match cs with
  | 'n' :: 'u' :: 'l' :: 'l' :: rest => .ok (.Null, rest)
  | _ => .error .InvalidToken

/-- Embedding of `next` from `lex.rs`: single-character dispatch on the peeked character;
the helpers are called with the dispatch character still unconsumed, exactly
as in the source.  End of input yields the `NoMoreTokens` sentinel. -/
def next : List Char → Except LexError (Token × List Char)
  | [] => .ok (.NoMoreTokens, [])
  | c :: cs =>
    if c = '{' then .ok (.ObjectStart, cs)
    else if c = '}' then .ok (.ObjectEnd, cs)
    else if c = '[' then .ok (.ArrayStart, cs)
    else if c = ']' then .ok (.ArrayEnd, cs)
    else if c = ',' then .ok (.Comma, cs)
    else if c = ':' then .ok (.Colon, cs)
    else if c = '0' then .ok (.Integer 0, cs)
    else if '1' ≤ c ∧ c ≤ '9' then lex_number (c :: cs)
    else if c = '"' then lex_string (c :: cs)
    else if c = 't' then lex_true (c :: cs)
    else if c = 'f' then lex_false (c :: cs)
    else if c = 'n' then lex_null (c :: cs)
    else if c = '\n' ∨ c = '\t' ∨ c = '\r' ∨ c = ' ' then .ok (.Whitespace, cs)
    else .error .InvalidToken

/-- The `loop` inside `Lexer::lex`: call `next` until it yields the
`NoMoreTokens` sentinel (which terminates without being pushed) or an error.
`fuel` bounds the number of iterations; `lex` supplies `length + 1`, which
suffices because every non-sentinel token consumes at least one character. -/
def lexLoop : Nat → List Char → Except LexError (List Token)
  | 0, _ => .error .InvalidToken
  | fuel + 1, cs =>
    match next cs with
    | .error e => .error e
    | .ok (t, rest) =>
      if t = .NoMoreTokens then .ok []
      else (lexLoop fuel rest).map (t :: ·)

/-- Embedding of `Lexer::lex` from `lex.rs`. -/
def lex (cs : List Char) : Except LexError (List Token) :=
  lexLoop (cs.length + 1) cs

/-- The ten decimal digit characters. -/
def digitChars : List Char := ['0', '1', '2', '3', '4', '5', '6', '7', '8', '9']

/-- The decimal value of a digit run (unbounded arithmetic). -/
def natValue (cs : List Char) : Nat :=
  cs.foldl (fun a c => a * 10 + (c.toNat - '0'.toNat)) 0

/-- The exact value denoted by a decimal numeral string such as `"1.05"`,
as a pair `(n, k)` representing `n / 10^k`; `parse::<f64>` returns the
floating-point rounding of this value, so short numerals with different
exact values parse to different floats.  Two pairs denote the same number
exactly when they agree after cross-multiplication (see `decEquiv`). -/
def decValue (s : String) : Nat × Nat :=
  match s.toList.splitOn '.' with
  | [ip, fp] => (natValue ip * 10 ^ fp.length + natValue fp, fp.length)
  | [ip] => (natValue ip, 0)
  | _ => (0, 0)

/-- Pairs `(n, k)` and `(m, j)` denote the same rational when `n / 10^k = m / 10^j`. -/
def decEquiv (a b : Nat × Nat) : Prop :=
  a.1 * 10 ^ b.2 = b.1 * 10 ^ a.2

instance (a b : Nat × Nat) : Decidable (decEquiv a b) :=
  inferInstanceAs (Decidable (_ = _))

/-! ### Parser data model (`parse.rs`) -/

/-- Embedding of `enum JSONNumber` from `parse.rs`; the `Float` payload is the token's
pre-parse text, as in `Token.Float`. -/
inductive JSONNumber where
  | Integer (n : Int)
  | Float (x : String)
deriving DecidableEq, Repr

mutual
/-- Embedding of `enum Object` from `parse.rs` (`Box` dropped). -/
inductive Object where
  | Empty : Object
  | Nonempty : Members → Object
/-- Embedding of `enum Members` from `parse.rs`: a right-recursive chain of pairs. -/
inductive Members where
  | Pair : String → Value → Members
  | Pairs : String → Value → Members → Members
/-- Embedding of `enum Array` from `parse.rs`. -/
inductive Array where
  | Empty : Array
  | Nonempty : Elements → Array
/-- Embedding of `enum Elements` from `parse.rs`: a right-recursive chain of values. -/
inductive Elements where
  | Single : Value → Elements
  | Many : Value → Elements → Elements
/-- Embedding of `enum Value` from `parse.rs`. -/
inductive Value where
  | String : String → Value
  | Number : JSONNumber → Value
  | Object : Object → Value
  | Array : Array → Value
  | True : Value
  | False : Value
  | Null : Value
end

/-- Embedding of `enum ParseError` from `parse.rs`. -/
inductive ParseError where
  | ExpectedToken
deriving DecidableEq, Repr

/-! ### Parser operations (`parse.rs`)

Each Rust function threads a `Peekable<Iter<Token>>`; here each takes the
remaining token list and returns the result with the unconsumed remainder.
The mutual recursion is made structural with a fuel argument; the public
wrappers supply fuel that is sufficient for any input of the given length
(every cycle through the mutual call graph consumes at least one token, and
at most three calls happen at the same token position:
`parse_members → parse_pair`, `parse_elements → parse_value`, and
`parse_value → parse_object`/`parse_array`). -/

mutual
/-- Embedding of `parse_object` from `parse.rs` (fueled). -/
def parse_objectF : Nat → List Token → Except ParseError (Object × List Token)
  | 0, _ => .error .ExpectedToken
  | fuel + 1, ts =>
    match ts with
    | .ObjectStart :: rest =>
      match rest with
      | .ObjectEnd :: rest2 => .ok (.Empty, rest2)
      | _ =>
        match parse_membersF fuel rest with
        | .ok (members, rest2) =>
          match rest2 with
          | .ObjectEnd :: rest3 => .ok (.Nonempty members, rest3)
          | _ => .error .ExpectedToken
        | .error e => .error e
    | _ => .error .ExpectedToken

/-- Embedding of `parse_members` from `parse.rs` (fueled). -/
def parse_membersF : Nat → List Token → Except ParseError (Members × List Token)
  | 0, _ => .error .ExpectedToken
  | fuel + 1, ts =>
    match parse_pairF fuel ts with
    | .ok ((key, value), rest) =>
      match rest with
      | .Comma :: rest2 =>
        match parse_membersF fuel rest2 with
        | .ok (members, rest3) => .ok (.Pairs key value members, rest3)
        | .error e => .error e
      | _ => .ok (.Pair key value, rest)
    | .error e => .error e

/-- Embedding of `parse_pair` from `parse.rs` (fueled): two `next()` calls must yield a
`String` and a `Colon`, then a value. -/
def parse_pairF : Nat → List Token → Except ParseError ((String × Value) × List Token)
  | 0, _ => .error .ExpectedToken
  | fuel + 1, ts =>
    match ts with
    | .String key :: .Colon :: rest =>
      match parse_valueF fuel rest with
      | .ok (value, rest2) => .ok ((key, value), rest2)
      | .error e => .error e
    | _ => .error .ExpectedToken

/-- Embedding of `parse_value` from `parse.rs` (fueled): dispatch on the peeked token;
`ObjectStart`/`ArrayStart` recurse with the token still unconsumed. -/
def parse_valueF : Nat → List Token → Except ParseError (Value × List Token)
  | 0, _ => .error .ExpectedToken
  | fuel + 1, ts =>
    match ts with
    | .String s :: rest => .ok (.String s, rest)
    | .Integer n :: rest => .ok (.Number (.Integer n), rest)
    | .Float x :: rest => .ok (.Number (.Float x), rest)
    | .True :: rest => .ok (.True, rest)
    | .False :: rest => .ok (.False, rest)
    | .Null :: rest => .ok (.Null, rest)
    | .ObjectStart :: rest =>
      match parse_objectF fuel (.ObjectStart :: rest) with
      | .ok (o, rest2) => .ok (.Object o, rest2)
      | .error e => .error e
    | .ArrayStart :: rest =>
      match parse_arrayF fuel (.ArrayStart :: rest) with
      | .ok (a, rest2) => .ok (.Array a, rest2)
      | .error e => .error e
    | _ => .error .ExpectedToken

/-- Embedding of `parse_array` from `parse.rs` (fueled). -/
def parse_arrayF : Nat → List Token → Except ParseError (Array × List Token)
  | 0, _ => .error .ExpectedToken
  | fuel + 1, ts =>
    match ts with
    | .ArrayStart :: rest =>
      match rest with
      | .ArrayEnd :: rest2 => .ok (.Empty, rest2)
      | _ =>
        match parse_elementsF fuel rest with
        | .ok (elements, rest2) =>
          match rest2 with
          | .ArrayEnd :: rest3 => .ok (.Nonempty elements, rest3)
          | _ => .error .ExpectedToken
        | .error e => .error e
    | _ => .error .ExpectedToken

/-- Embedding of `parse_elements` from `parse.rs` (fueled). -/
def parse_elementsF : Nat → List Token → Except ParseError (Elements × List Token)
  | 0, _ => .error .ExpectedToken
  | fuel + 1, ts =>
    match parse_valueF fuel ts with
    | .ok (value, rest) =>
      match rest with
      | .Comma :: rest2 =>
        match parse_elementsF fuel rest2 with
        | .ok (elements, rest3) => .ok (.Many value elements, rest3)
        | .error e => .error e
      | _ => .ok (.Single value, rest)
    | .error e => .error e
end

/-- The public `parse_object` entry point: fuel `3·length + 3` is enough for
any input (see the comment above the mutual block). -/
def parse_object (ts : List Token) : Except ParseError (Object × List Token) :=
  parse_objectF (3 * ts.length + 3) ts

/-! ### Canonical token renderings of the parse tree

`xTokens a` is the unique token sequence that a successful parse of `a`
consumed: the soundness theorem below shows that whenever a parse succeeds,
the consumed prefix of the input is exactly this rendering. -/

mutual
/-- Tokens consumed by a successful `parse_object` returning this object. -/
def objectTokens : Object → List Token
  | .Empty => [.ObjectStart, .ObjectEnd]
  | .Nonempty m => .ObjectStart :: (membersTokens m ++ [.ObjectEnd])
/-- Tokens consumed by a successful `parse_members` returning this chain. -/
def membersTokens : Members → List Token
  | .Pair k v => .String k :: .Colon :: valueTokens v
  | .Pairs k v m => .String k :: .Colon :: (valueTokens v ++ .Comma :: membersTokens m)
/-- Tokens consumed by a successful `parse_array` returning this array. -/
def arrayTokens : Array → List Token
  | .Empty => [.ArrayStart, .ArrayEnd]
  | .Nonempty es => .ArrayStart :: (elementsTokens es ++ [.ArrayEnd])
/-- Tokens consumed by a successful `parse_elements` returning this chain. -/
def elementsTokens : Elements → List Token
  | .Single v => valueTokens v
  | .Many v es => valueTokens v ++ .Comma :: elementsTokens es
/-- Tokens consumed by a successful `parse_value` returning this value. -/
def valueTokens : Value → List Token
  | .String s => [.String s]
  | .Number (.Integer n) => [.Integer n]
  | .Number (.Float x) => [.Float x]
  | .Object o => objectTokens o
  | .Array a => arrayTokens a
  | .True => [.True]
  | .False => [.False]
  | .Null => [.Null]
end

/-- The key/value pairs held by a `Members` chain, outermost link first
(which the soundness theorem shows is source order). -/
def pairsOf : Members → List (String × Value)
  | .Pair k v => [(k, v)]
  | .Pairs k v m => (k, v) :: pairsOf m

/-- The pair held by the innermost (terminal) `Pair` link of a chain. -/
def lastPair : Members → String × Value
  | .Pair k v => (k, v)
  | .Pairs _ _ m => lastPair m

/-- The token rendering of one key/value pair: `String key`, `Colon`, value. -/
def pairTokens (kv : String × Value) : List Token :=
  .String kv.1 :: .Colon :: valueTokens kv.2

/-- Token rendering of a pair list, comma-separated (no trailing comma). -/
def joinPairs : List (String × Value) → List Token
  | [] => []
  | [kv] => pairTokens kv
  | kv :: rest => pairTokens kv ++ .Comma :: joinPairs rest

/-! ### Numeric leaves -/

/-- The numeric payloads among a token list, in order. -/
def tokNums (ts : List Token) : List JSONNumber :=
  ts.filterMap fun t =>
    match t with
    | .Integer n => some (.Integer n)
    | .Float x => some (.Float x)
    | _ => none

mutual
/-- The numeric leaves of an object, in rendering order. -/
def objNumLeaves : Object → List JSONNumber
  | .Empty => []
  | .Nonempty m => memNumLeaves m
/-- The numeric leaves of a members chain, in rendering order. -/
def memNumLeaves : Members → List JSONNumber
  | .Pair _ v => valNumLeaves v
  | .Pairs _ v m => valNumLeaves v ++ memNumLeaves m
/-- The numeric leaves of an array, in rendering order. -/
def arrNumLeaves : Array → List JSONNumber
  | .Empty => []
  | .Nonempty es => elemNumLeaves es
/-- The numeric leaves of an elements chain, in rendering order. -/
def elemNumLeaves : Elements → List JSONNumber
  | .Single v => valNumLeaves v
  | .Many v es => valNumLeaves v ++ elemNumLeaves es
/-- The numeric leaves of a value, in rendering order. -/
def valNumLeaves : Value → List JSONNumber
  | .Number n => [n]
  | .Object o => objNumLeaves o
  | .Array a => arrNumLeaves a
  | _ => []
end

/-! ### Concrete evaluations (regression checks for the embedding) -/

example : lex ['1', 'a'] = .ok [Token.Integer 20] := rfl
example : lex ['1', '.', '}'] = .ok [Token.Float "1.0", Token.ObjectEnd] := rfl
example : lex ['1', '.'] = .error .InvalidToken := rfl
example : lex ['"', '\\', '"'] = .ok [Token.String "\\"] := rfl
example : lex ['1', '.', '0', '5'] = .ok [Token.Float "1.5"] := rfl
example : lex ['{', '}'] = .ok [Token.ObjectStart, Token.ObjectEnd] := rfl
example : lex ['1', '0'] = .ok [Token.Integer 10] := rfl
example : lex ['t', 'r', 'u', 'e', ' '] = .ok [Token.True, Token.Whitespace] := rfl
example : lex ['x'] = .error .InvalidToken := rfl
example :
    lex ['2','1','4','7','4','8','3','6','4','8'] = .ok [Token.Integer (-2147483648)] := rfl

example : parse_object [Token.ObjectStart, Token.ObjectEnd] = .ok (Object.Empty, []) := rfl

example :
    parse_object [Token.ObjectStart, Token.ObjectEnd, Token.ObjectStart] =
      .ok (Object.Empty, [Token.ObjectStart]) := rfl

example :
    parse_object [Token.ObjectStart, Token.String "key", Token.Colon,
      Token.String "value", Token.ObjectEnd] =
      .ok (Object.Nonempty (Members.Pair "key" (Value.String "value")), []) := rfl

example :
    parse_object [Token.ObjectStart, Token.String "a", Token.Colon, Token.Integer 1,
      Token.Comma, Token.ObjectEnd] = .error .ExpectedToken := rfl

example :
    parse_object [Token.ObjectStart, Token.String "k", Token.Colon, Token.ArrayStart,
      Token.Integer 5, Token.Comma, Token.String "e", Token.ArrayEnd, Token.ObjectEnd] =
      .ok (Object.Nonempty (Members.Pair "k" (Value.Array (Array.Nonempty
        (Elements.Many (Value.Number (JSONNumber.Integer 5))
          (Elements.Single (Value.String "e")))))), []) := rfl

theorem membersTokens_eq_joinPairs : ∀ m : Members,
    membersTokens m = joinPairs (pairsOf m)
  | .Pair _ _ => rfl
  | .Pairs k v m => by
    have ih := membersTokens_eq_joinPairs m
    cases m <;> simp_all [membersTokens, pairsOf, joinPairs, pairTokens]

theorem pairsOf_ne_nil (m : Members) : pairsOf m ≠ [] := by
  cases m <;> simp [pairsOf]

theorem getLast?_pairsOf : ∀ m : Members, (pairsOf m).getLast? = some (lastPair m)
  | .Pair _ _ => rfl
  | .Pairs k v m => by
    have ih := getLast?_pairsOf m
    have h := pairsOf_ne_nil m
    cases hm : pairsOf m with
    | nil => exact absurd hm h
    | cons p ps =>
      rw [hm] at ih
      simp [pairsOf, lastPair, hm, List.getLast?_cons_cons, ih]

theorem valueTokens_ne_nil (v : Value) : valueTokens v ≠ [] := by
  cases v with
  | Number n => cases n <;> simp [valueTokens]
  | Object o => cases o <;> simp [valueTokens, objectTokens]
  | Array a => cases a <;> simp [valueTokens, arrayTokens]
  | _ => simp [valueTokens]

theorem membersTokens_ne_nil (m : Members) : membersTokens m ≠ [] := by
  cases m <;> simp [membersTokens]

theorem elementsTokens_ne_nil (es : Elements) : elementsTokens es ≠ [] := by
  cases es <;> simp [elementsTokens, valueTokens_ne_nil]

/-- Soundness of the parser: whenever any of the mutually recursive parse
functions succeeds, the input decomposes as the canonical token rendering of
the result followed by the returned remainder.  In particular the consumed
tokens are a function of the result alone. -/
theorem parseF_sound : ∀ fuel : Nat,
    (∀ ts o rest, parse_objectF fuel ts = .ok (o, rest) → ts = objectTokens o ++ rest) ∧
    (∀ ts a rest, parse_arrayF fuel ts = .ok (a, rest) → ts = arrayTokens a ++ rest) ∧
    (∀ ts v rest, parse_valueF fuel ts = .ok (v, rest) → ts = valueTokens v ++ rest) ∧
    (∀ ts kv rest, parse_pairF fuel ts = .ok (kv, rest) →
        ts = Token.String kv.1 :: Token.Colon :: (valueTokens kv.2 ++ rest)) ∧
    (∀ ts m rest, parse_membersF fuel ts = .ok (m, rest) → ts = membersTokens m ++ rest) ∧
    (∀ ts es rest, parse_elementsF fuel ts = .ok (es, rest) → ts = elementsTokens es ++ rest) := by
  intro fuel
  induction fuel with
  | zero =>
    refine ⟨?_, ?_, ?_, ?_, ?_, ?_⟩ <;> intro ts x rest h <;>
      simp [parse_objectF, parse_arrayF, parse_valueF, parse_pairF,
        parse_membersF, parse_elementsF] at h
  | succ f ih =>
    obtain ⟨iho, iha, ihv, ihp, ihm, ihe⟩ := ih
    refine ⟨?_, ?_, ?_, ?_, ?_, ?_⟩
    · -- parse_object
      intro ts o rest h
      cases ts with
      | nil => simp [parse_objectF] at h
      | cons t ts' =>
        cases t <;> simp [parse_objectF] at h
        split at h
        · obtain ⟨rfl, rfl⟩ := h
          simp [objectTokens]
        · cases hm : parse_membersF f ts' with
          | error e => simp [hm] at h
          | ok p =>
            obtain ⟨m, r2⟩ := p
            simp only [hm] at h
            split at h
            · obtain ⟨rfl, rfl⟩ := h
              have := ihm _ _ _ hm
              simp [objectTokens, this]
            · simp at h
    · -- parse_array
      intro ts a rest h
      cases ts with
      | nil => simp [parse_arrayF] at h
      | cons t ts' =>
        cases t <;> simp [parse_arrayF] at h
        split at h
        · obtain ⟨rfl, rfl⟩ := h
          simp [arrayTokens]
        · cases he : parse_elementsF f ts' with
          | error e => simp [he] at h
          | ok p =>
            obtain ⟨es, r2⟩ := p
            simp only [he] at h
            split at h
            · obtain ⟨rfl, rfl⟩ := h
              have := ihe _ _ _ he
              simp [arrayTokens, this]
            · simp at h
    · -- parse_value
      intro ts v rest h
      cases ts with
      | nil => simp [parse_valueF] at h
      | cons t ts' =>
        cases t with
        | String s =>
          simp [parse_valueF] at h
          obtain ⟨rfl, rfl⟩ := h
          simp [valueTokens]
        | Integer n =>
          simp [parse_valueF] at h
          obtain ⟨rfl, rfl⟩ := h
          simp [valueTokens]
        | Float x =>
          simp [parse_valueF] at h
          obtain ⟨rfl, rfl⟩ := h
          simp [valueTokens]
        | True =>
          simp [parse_valueF] at h
          obtain ⟨rfl, rfl⟩ := h
          simp [valueTokens]
        | False =>
          simp [parse_valueF] at h
          obtain ⟨rfl, rfl⟩ := h
          simp [valueTokens]
        | Null =>
          simp [parse_valueF] at h
          obtain ⟨rfl, rfl⟩ := h
          simp [valueTokens]
        | ObjectStart =>
          simp only [parse_valueF] at h
          cases ho : parse_objectF f (Token.ObjectStart :: ts') with
          | error e => simp [ho] at h
          | ok p =>
            obtain ⟨o, r2⟩ := p
            simp only [ho] at h
            obtain ⟨rfl, rfl⟩ := h
            have := iho _ _ _ ho
            simpa [valueTokens] using this
        | ArrayStart =>
          simp only [parse_valueF] at h
          cases ha : parse_arrayF f (Token.ArrayStart :: ts') with
          | error e => simp [ha] at h
          | ok p =>
            obtain ⟨a, r2⟩ := p
            simp only [ha] at h
            obtain ⟨rfl, rfl⟩ := h
            have := iha _ _ _ ha
            simpa [valueTokens] using this
        | ObjectEnd => simp [parse_valueF] at h
        | ArrayEnd => simp [parse_valueF] at h
        | Comma => simp [parse_valueF] at h
        | Colon => simp [parse_valueF] at h
        | Whitespace => simp [parse_valueF] at h
        | NoMoreTokens => simp [parse_valueF] at h
    · -- parse_pair
      intro ts kv rest h
      match ts with
      | [] => simp [parse_pairF] at h
      | [t] =>
        cases t <;> simp [parse_pairF] at h
      | t1 :: t2 :: ts' =>
        cases t1 <;> cases t2 <;> simp [parse_pairF] at h
        case String.Colon k =>
          cases hv : parse_valueF f ts' with
          | error e => simp [hv] at h
          | ok p =>
            obtain ⟨v, r2⟩ := p
            simp only [hv] at h
            obtain ⟨rfl, rfl⟩ := h
            have := ihv _ _ _ hv
            simp [this]
    · -- parse_members
      intro ts m rest h
      simp only [parse_membersF] at h
      cases hp : parse_pairF f ts with
      | error e => simp [hp] at h
      | ok p =>
        obtain ⟨⟨k, v⟩, r⟩ := p
        simp only [hp] at h
        split at h
        · rename_i r2
          cases hm2 : parse_membersF f r2 with
          | error e => simp [hm2] at h
          | ok p2 =>
            obtain ⟨m2, r3⟩ := p2
            rw [hm2] at h
            simp only [Except.ok.injEq, Prod.mk.injEq] at h
            obtain ⟨rfl, rfl⟩ := h
            have h1 := ihp _ _ _ hp
            have h2 := ihm _ _ _ hm2
            simp [membersTokens, h1, h2]
        · simp only [Except.ok.injEq, Prod.mk.injEq] at h
          obtain ⟨rfl, rfl⟩ := h
          have h1 := ihp _ _ _ hp
          simp [membersTokens, h1]
    · -- parse_elements
      intro ts es rest h
      simp only [parse_elementsF] at h
      cases hv : parse_valueF f ts with
      | error e => simp [hv] at h
      | ok p =>
        obtain ⟨v, r⟩ := p
        simp only [hv] at h
        split at h
        · rename_i r2
          cases he2 : parse_elementsF f r2 with
          | error e => simp [he2] at h
          | ok p2 =>
            obtain ⟨es2, r3⟩ := p2
            rw [he2] at h
            simp only [Except.ok.injEq, Prod.mk.injEq] at h
            obtain ⟨rfl, rfl⟩ := h
            have h1 := ihv _ _ _ hv
            have h2 := ihe _ _ _ he2
            simp [elementsTokens, h1, h2]
        · simp only [Except.ok.injEq, Prod.mk.injEq] at h
          obtain ⟨rfl, rfl⟩ := h
          have h1 := ihv _ _ _ hv
          simp [elementsTokens, h1]

theorem parse_pairF_nil (f : Nat) : parse_pairF f [] = .error .ExpectedToken := by
  cases f <;> rfl

theorem parse_membersF_nil (f : Nat) : parse_membersF f [] = .error .ExpectedToken := by
  cases f with
  | zero => rfl
  | succ f => simp [parse_membersF, parse_pairF_nil]

theorem parse_valueF_nil (f : Nat) : parse_valueF f [] = .error .ExpectedToken := by
  cases f <;> rfl

theorem parse_elementsF_nil (f : Nat) : parse_elementsF f [] = .error .ExpectedToken := by
  cases f with
  | zero => rfl
  | succ f => simp [parse_elementsF, parse_valueF_nil]

/-- A members chain always renders starting with a `String` (key) token. -/
theorem membersTokens_head (m : Members) :
    ∃ k tl, membersTokens m = Token.String k :: tl := by
  cases m <;> exact ⟨_, _, rfl⟩

/-- A value rendering is nonempty and never starts with a closing delimiter
or a comma. -/
theorem valueTokens_head (v : Value) :
    ∃ t tl, valueTokens v = t :: tl ∧ t ≠ Token.ObjectEnd ∧ t ≠ Token.ArrayEnd ∧
      t ≠ Token.Comma := by
  cases v with
  | Number n => cases n <;> exact ⟨_, _, rfl, by simp, by simp, by simp⟩
  | Object o => cases o <;> exact ⟨_, _, rfl, by simp, by simp, by simp⟩
  | Array a => cases a <;> exact ⟨_, _, rfl, by simp, by simp, by simp⟩
  | _ => exact ⟨_, _, rfl, by simp, by simp, by simp⟩

/-- An elements chain renders starting with its first value's first token. -/
theorem elementsTokens_head (es : Elements) :
    ∃ t tl, elementsTokens es = t :: tl ∧ t ≠ Token.ArrayEnd := by
  cases es with
  | Single v =>
    obtain ⟨t, tl, h, _, h2, _⟩ := valueTokens_head v
    exact ⟨t, tl, by simp [elementsTokens, h], h2⟩
  | Many v es =>
    obtain ⟨t, tl, h, _, h2, _⟩ := valueTokens_head v
    exact ⟨t, tl ++ Token.Comma :: elementsTokens es, by simp [elementsTokens, h], h2⟩

/-- One-step unfolding of `parse_objectF` on a non-`ObjectEnd` second token:
the empty-object branch is skipped and `parse_members` runs. -/
theorem parse_objectF_step (f : Nat) (t : Token) (tl : List Token)
    (ht : t ≠ Token.ObjectEnd) :
    parse_objectF (f + 1) (Token.ObjectStart :: t :: tl) =
      (match parse_membersF f (t :: tl) with
        | .ok (m, r2) =>
          (match r2 with
            | Token.ObjectEnd :: r3 => .ok (.Nonempty m, r3)
            | _ => .error .ExpectedToken)
        | .error e => .error e) := by
  cases t <;> first | rfl | exact absurd rfl ht

/-- One-step unfolding of `parse_arrayF` on a non-`ArrayEnd` second token. -/
theorem parse_arrayF_step (f : Nat) (t : Token) (tl : List Token)
    (ht : t ≠ Token.ArrayEnd) :
    parse_arrayF (f + 1) (Token.ArrayStart :: t :: tl) =
      (match parse_elementsF f (t :: tl) with
        | .ok (es, r2) =>
          (match r2 with
            | Token.ArrayEnd :: r3 => .ok (.Nonempty es, r3)
            | _ => .error .ExpectedToken)
        | .error e => .error e) := by
  cases t <;> first | rfl | exact absurd rfl ht

/-- Running `parse_valueF` on an `ObjectStart` head delegates to `parse_objectF`. -/
theorem parse_valueF_objstart (f : Nat) (ts : List Token) :
    parse_valueF (f + 1) (Token.ObjectStart :: ts) =
      (match parse_objectF f (Token.ObjectStart :: ts) with
        | .ok (o, r2) => .ok (Value.Object o, r2)
        | .error e => .error e) := rfl

/-- Running `parse_valueF` on an `ArrayStart` head delegates to `parse_arrayF`. -/
theorem parse_valueF_arrstart (f : Nat) (ts : List Token) :
    parse_valueF (f + 1) (Token.ArrayStart :: ts) =
      (match parse_arrayF f (Token.ArrayStart :: ts) with
        | .ok (a, r2) => .ok (Value.Array a, r2)
        | .error e => .error e) := rfl

/-- Running `parse_pairF` on a `String`/`Colon` prefix delegates to `parse_valueF`. -/
theorem parse_pairF_cons (f : Nat) (k : String) (ts : List Token) :
    parse_pairF (f + 1) (Token.String k :: Token.Colon :: ts) =
      (match parse_valueF f ts with
        | .ok (v, r2) => .ok ((k, v), r2)
        | .error e => .error e) := rfl

/-- Behaviour of `parse_members` when the pair is followed by a comma. -/
theorem parse_membersF_pair_comma (f : Nat) (ts r2 : List Token) (k : String)
    (v : Value) (hp : parse_pairF f ts = .ok ((k, v), Token.Comma :: r2)) :
    parse_membersF (f + 1) ts =
      (match parse_membersF f r2 with
        | .ok (m, r3) => .ok (.Pairs k v m, r3)
        | .error e => .error e) := by
  simp only [parse_membersF, hp]

/-- Behaviour of `parse_members` when the pair is followed by anything but a comma:
the chain terminates at this single pair. -/
theorem parse_membersF_pair_done (f : Nat) (ts tl : List Token) (k : String)
    (v : Value) (t : Token) (hp : parse_pairF f ts = .ok ((k, v), t :: tl))
    (ht : t ≠ Token.Comma) :
    parse_membersF (f + 1) ts = .ok (.Pair k v, t :: tl) := by
  cases t <;> simp only [parse_membersF, hp] <;> first | rfl | exact absurd rfl ht

/-- Behaviour of `parse_elements` when the value is followed by a comma. -/
theorem parse_elementsF_value_comma (f : Nat) (ts r2 : List Token)
    (v : Value) (hv : parse_valueF f ts = .ok (v, Token.Comma :: r2)) :
    parse_elementsF (f + 1) ts =
      (match parse_elementsF f r2 with
        | .ok (es, r3) => .ok (.Many v es, r3)
        | .error e => .error e) := by
  simp only [parse_elementsF, hv]

/-- Behaviour of `parse_elements` when the value is followed by anything but a comma. -/
theorem parse_elementsF_value_done (f : Nat) (ts tl : List Token)
    (v : Value) (t : Token) (hv : parse_valueF f ts = .ok (v, t :: tl))
    (ht : t ≠ Token.Comma) :
    parse_elementsF (f + 1) ts = .ok (.Single v, t :: tl) := by
  cases t <;> simp only [parse_elementsF, hv] <;> first | rfl | exact absurd rfl ht

/-- Unconsumed input is inert: a successful parse gives the same result when
the input is extended past the returned remainder, for any fuel at least the
original (for `parse_members`/`parse_elements` the remainder must be nonempty,
which holds at every call site inside an enclosing object or array, whose
closing delimiter is still unconsumed). -/
theorem parseF_extend : ∀ fuel : Nat,
    (∀ fuel' ts extra o rest, fuel ≤ fuel' →
        parse_objectF fuel ts = .ok (o, rest) →
        parse_objectF fuel' (ts ++ extra) = .ok (o, rest ++ extra)) ∧
    (∀ fuel' ts extra a rest, fuel ≤ fuel' →
        parse_arrayF fuel ts = .ok (a, rest) →
        parse_arrayF fuel' (ts ++ extra) = .ok (a, rest ++ extra)) ∧
    (∀ fuel' ts extra v rest, fuel ≤ fuel' →
        parse_valueF fuel ts = .ok (v, rest) →
        parse_valueF fuel' (ts ++ extra) = .ok (v, rest ++ extra)) ∧
    (∀ fuel' ts extra kv rest, fuel ≤ fuel' →
        parse_pairF fuel ts = .ok (kv, rest) →
        parse_pairF fuel' (ts ++ extra) = .ok (kv, rest ++ extra)) ∧
    (∀ fuel' ts extra m rest, fuel ≤ fuel' → rest ≠ [] →
        parse_membersF fuel ts = .ok (m, rest) →
        parse_membersF fuel' (ts ++ extra) = .ok (m, rest ++ extra)) ∧
    (∀ fuel' ts extra es rest, fuel ≤ fuel' → rest ≠ [] →
        parse_elementsF fuel ts = .ok (es, rest) →
        parse_elementsF fuel' (ts ++ extra) = .ok (es, rest ++ extra)) := by
  intro fuel
  induction fuel with
  | zero =>
    refine ⟨?_, ?_, ?_, ?_, ?_, ?_⟩
    · intro fuel' ts extra x rest hle h; simp [parse_objectF] at h
    · intro fuel' ts extra x rest hle h; simp [parse_arrayF] at h
    · intro fuel' ts extra x rest hle h; simp [parse_valueF] at h
    · intro fuel' ts extra x rest hle h; simp [parse_pairF] at h
    · intro fuel' ts extra x rest hle hne h; simp [parse_membersF] at h
    · intro fuel' ts extra x rest hle hne h; simp [parse_elementsF] at h
  | succ f ih =>
    obtain ⟨iho, iha, ihv, ihp, ihm, ihe⟩ := ih
    refine ⟨?_, ?_, ?_, ?_, ?_, ?_⟩
    · -- parse_object
      intro fuel' ts extra o rest hle h
      cases fuel' with
      | zero => exact absurd hle (by omega)
      | succ f' =>
        have hle' : f ≤ f' := by omega
        cases ts with
        | nil => simp [parse_objectF] at h
        | cons t ts' =>
          cases t <;> simp [parse_objectF] at h
          split at h
          · obtain ⟨rfl, rfl⟩ := h
            simp only [List.cons_append]
            rfl
          · cases hm : parse_membersF f ts' with
            | error e => simp [hm] at h
            | ok p =>
              obtain ⟨m, r2⟩ := p
              rw [hm] at h
              simp only at h
              split at h
              · rename_i r3
                simp only [Except.ok.injEq, Prod.mk.injEq] at h
                obtain ⟨rfl, rfl⟩ := h
                have hsound := (parseF_sound f).2.2.2.2.1 _ _ _ hm
                obtain ⟨k, tl0, hk⟩ := membersTokens_head m
                rw [hk] at hsound
                simp only [List.cons_append] at hsound
                subst hsound
                have hext := ihm f' _ extra m (Token.ObjectEnd :: r3) hle' (by simp) hm
                simp only [List.cons_append] at hext ⊢
                rw [parse_objectF_step f' _ _ (by simp), hext]
              · simp at h
    · -- parse_array
      intro fuel' ts extra a rest hle h
      cases fuel' with
      | zero => exact absurd hle (by omega)
      | succ f' =>
        have hle' : f ≤ f' := by omega
        cases ts with
        | nil => simp [parse_arrayF] at h
        | cons t ts' =>
          cases t <;> simp [parse_arrayF] at h
          split at h
          · obtain ⟨rfl, rfl⟩ := h
            simp only [List.cons_append]
            rfl
          · cases he : parse_elementsF f ts' with
            | error e => simp [he] at h
            | ok p =>
              obtain ⟨es, r2⟩ := p
              rw [he] at h
              simp only at h
              split at h
              · rename_i r3
                simp only [Except.ok.injEq, Prod.mk.injEq] at h
                obtain ⟨rfl, rfl⟩ := h
                have hsound := (parseF_sound f).2.2.2.2.2 _ _ _ he
                obtain ⟨t2, tl0, hk, ht2⟩ := elementsTokens_head es
                rw [hk] at hsound
                simp only [List.cons_append] at hsound
                subst hsound
                have hext := ihe f' _ extra es (Token.ArrayEnd :: r3) hle' (by simp) he
                simp only [List.cons_append] at hext ⊢
                rw [parse_arrayF_step f' _ _ ht2, hext]
              · simp at h
    · -- parse_value
      intro fuel' ts extra v rest hle h
      cases fuel' with
      | zero => exact absurd hle (by omega)
      | succ f' =>
        have hle' : f ≤ f' := by omega
        cases ts with
        | nil => simp [parse_valueF] at h
        | cons t ts' =>
          cases t with
          | String s =>
            simp [parse_valueF] at h
            obtain ⟨rfl, rfl⟩ := h
            simp only [List.cons_append]
            rfl
          | Integer n =>
            simp [parse_valueF] at h
            obtain ⟨rfl, rfl⟩ := h
            simp only [List.cons_append]
            rfl
          | Float x =>
            simp [parse_valueF] at h
            obtain ⟨rfl, rfl⟩ := h
            simp only [List.cons_append]
            rfl
          | True =>
            simp [parse_valueF] at h
            obtain ⟨rfl, rfl⟩ := h
            simp only [List.cons_append]
            rfl
          | False =>
            simp [parse_valueF] at h
            obtain ⟨rfl, rfl⟩ := h
            simp only [List.cons_append]
            rfl
          | Null =>
            simp [parse_valueF] at h
            obtain ⟨rfl, rfl⟩ := h
            simp only [List.cons_append]
            rfl
          | ObjectStart =>
            rw [parse_valueF_objstart] at h
            cases ho : parse_objectF f (Token.ObjectStart :: ts') with
            | error e => simp [ho] at h
            | ok p =>
              obtain ⟨o, r2⟩ := p
              rw [ho] at h
              simp only [Except.ok.injEq, Prod.mk.injEq] at h
              obtain ⟨rfl, rfl⟩ := h
              have hext := iho f' (Token.ObjectStart :: ts') extra o _ hle' ho
              simp only [List.cons_append] at hext ⊢
              rw [parse_valueF_objstart, hext]
          | ArrayStart =>
            rw [parse_valueF_arrstart] at h
            cases ha : parse_arrayF f (Token.ArrayStart :: ts') with
            | error e => simp [ha] at h
            | ok p =>
              obtain ⟨a, r2⟩ := p
              rw [ha] at h
              simp only [Except.ok.injEq, Prod.mk.injEq] at h
              obtain ⟨rfl, rfl⟩ := h
              have hext := iha f' (Token.ArrayStart :: ts') extra a _ hle' ha
              simp only [List.cons_append] at hext ⊢
              rw [parse_valueF_arrstart, hext]
          | ObjectEnd => simp [parse_valueF] at h
          | ArrayEnd => simp [parse_valueF] at h
          | Comma => simp [parse_valueF] at h
          | Colon => simp [parse_valueF] at h
          | Whitespace => simp [parse_valueF] at h
          | NoMoreTokens => simp [parse_valueF] at h
    · -- parse_pair
      intro fuel' ts extra kv rest hle h
      cases fuel' with
      | zero => exact absurd hle (by omega)
      | succ f' =>
        have hle' : f ≤ f' := by omega
        match ts with
        | [] => simp [parse_pairF] at h
        | [t] => cases t <;> simp [parse_pairF] at h
        | t1 :: t2 :: ts' =>
          cases t1 <;> cases t2 <;> simp [parse_pairF] at h
          case String.Colon k =>
            cases hv : parse_valueF f ts' with
            | error e => simp [hv] at h
            | ok p =>
              obtain ⟨v, r2⟩ := p
              rw [hv] at h
              simp only [Except.ok.injEq, Prod.mk.injEq] at h
              obtain ⟨rfl, rfl⟩ := h
              have hext := ihv f' ts' extra v _ hle' hv
              simp only [List.cons_append]
              rw [parse_pairF_cons, hext]
    · -- parse_members
      intro fuel' ts extra m rest hle hne h
      cases fuel' with
      | zero => exact absurd hle (by omega)
      | succ f' =>
        have hle' : f ≤ f' := by omega
        simp only [parse_membersF] at h
        cases hp : parse_pairF f ts with
        | error e => simp [hp] at h
        | ok p =>
          obtain ⟨⟨k, v⟩, r⟩ := p
          simp only [hp] at h
          split at h
          · rename_i r2
            cases hm2 : parse_membersF f r2 with
            | error e => simp [hm2] at h
            | ok p2 =>
              obtain ⟨m2, r3⟩ := p2
              rw [hm2] at h
              simp only [Except.ok.injEq, Prod.mk.injEq] at h
              obtain ⟨rfl, rfl⟩ := h
              have hpext := ihp f' ts extra (k, v) (Token.Comma :: r2) hle' hp
              simp only [List.cons_append] at hpext
              have hext := ihm f' r2 extra m2 _ hle' hne hm2
              rw [parse_membersF_pair_comma f' _ _ _ _ hpext, hext]
          · rename_i rest0 hnc
            simp only [Except.ok.injEq, Prod.mk.injEq] at h
            obtain ⟨rfl, rfl⟩ := h
            cases r with
            | nil => exact absurd rfl hne
            | cons t2 tl =>
              have ht2 : t2 ≠ Token.Comma := fun he => hnc tl (by rw [he])
              have hpext := ihp f' ts extra (k, v) (t2 :: tl) hle' hp
              simp only [List.cons_append] at hpext
              rw [parse_membersF_pair_done f' _ _ _ _ _ hpext ht2]
              simp only [List.cons_append]
    · -- parse_elements
      intro fuel' ts extra es rest hle hne h
      cases fuel' with
      | zero => exact absurd hle (by omega)
      | succ f' =>
        have hle' : f ≤ f' := by omega
        simp only [parse_elementsF] at h
        cases hv : parse_valueF f ts with
        | error e => simp [hv] at h
        | ok p =>
          obtain ⟨v, r⟩ := p
          simp only [hv] at h
          split at h
          · rename_i r2
            cases he2 : parse_elementsF f r2 with
            | error e => simp [he2] at h
            | ok p2 =>
              obtain ⟨es2, r3⟩ := p2
              rw [he2] at h
              simp only [Except.ok.injEq, Prod.mk.injEq] at h
              obtain ⟨rfl, rfl⟩ := h
              have hvext := ihv f' ts extra v (Token.Comma :: r2) hle' hv
              simp only [List.cons_append] at hvext
              have hext := ihe f' r2 extra es2 _ hle' hne he2
              rw [parse_elementsF_value_comma f' _ _ _ hvext, hext]
          · rename_i rest0 hnc
            simp only [Except.ok.injEq, Prod.mk.injEq] at h
            obtain ⟨rfl, rfl⟩ := h
            cases r with
            | nil => exact absurd rfl hne
            | cons t2 tl =>
              have ht2 : t2 ≠ Token.Comma := fun he => hnc tl (by rw [he])
              have hvext := ihv f' ts extra v (t2 :: tl) hle' hv
              simp only [List.cons_append] at hvext
              rw [parse_elementsF_value_done f' _ _ _ _ hvext ht2]
              simp only [List.cons_append]

@[simp] theorem tokNums_nil : tokNums [] = [] := rfl

@[simp] theorem tokNums_cons (t : Token) (ts : List Token) :
    tokNums (t :: ts) =
      (match t with
        | .Integer n => [JSONNumber.Integer n]
        | .Float x => [JSONNumber.Float x]
        | _ => []) ++ tokNums ts := by
  cases t <;> simp [tokNums, List.filterMap_cons]

@[simp] theorem tokNums_append (l1 l2 : List Token) :
    tokNums (l1 ++ l2) = tokNums l1 ++ tokNums l2 := by
  simp [tokNums, List.filterMap_append]

mutual
/-- The numeric tokens of an object rendering are its numeric leaves. -/
theorem tokNums_objectTokens : ∀ o : Object, tokNums (objectTokens o) = objNumLeaves o
  | .Empty => rfl
  | .Nonempty m => by
    have ih := tokNums_membersTokens m
    simp [objectTokens, objNumLeaves, ih]
/-- The numeric tokens of a members rendering are its numeric leaves. -/
theorem tokNums_membersTokens : ∀ m : Members, tokNums (membersTokens m) = memNumLeaves m
  | .Pair k v => by
    have ih := tokNums_valueTokens v
    simp [membersTokens, memNumLeaves, ih]
  | .Pairs k v m => by
    have ih1 := tokNums_valueTokens v
    have ih2 := tokNums_membersTokens m
    simp [membersTokens, memNumLeaves, ih1, ih2]
/-- The numeric tokens of an array rendering are its numeric leaves. -/
theorem tokNums_arrayTokens : ∀ a : Array, tokNums (arrayTokens a) = arrNumLeaves a
  | .Empty => rfl
  | .Nonempty es => by
    have ih := tokNums_elementsTokens es
    simp [arrayTokens, arrNumLeaves, ih]
/-- The numeric tokens of an elements rendering are its numeric leaves. -/
theorem tokNums_elementsTokens : ∀ es : Elements,
    tokNums (elementsTokens es) = elemNumLeaves es
  | .Single v => by
    have ih := tokNums_valueTokens v
    simp [elementsTokens, elemNumLeaves, ih]
  | .Many v es => by
    have ih1 := tokNums_valueTokens v
    have ih2 := tokNums_elementsTokens es
    simp [elementsTokens, elemNumLeaves, ih1, ih2]
/-- The numeric tokens of a value rendering are its numeric leaves. -/
theorem tokNums_valueTokens : ∀ v : Value, tokNums (valueTokens v) = valNumLeaves v
  | .String s => rfl
  | .Number (.Integer n) => rfl
  | .Number (.Float x) => rfl
  | .Object o => by
    have ih := tokNums_objectTokens o
    simpa [valueTokens, valNumLeaves] using ih
  | .Array a => by
    have ih := tokNums_arrayTokens a
    simpa [valueTokens, valNumLeaves] using ih
  | .True => rfl
  | .False => rfl
  | .Null => rfl
end

/-! ### Lexer lemmas -/

theorem toDigit_11_of_digit : ∀ c ∈ digitChars, toDigit 11 c = some (c.toNat - '0'.toNat) := by
  decide

theorem toDigit_11_dot : toDigit 11 '.' = none := by decide

/-- The radix-11 accumulation loop consumes exactly a leading run of digit
characters and applies the wrapping step to each. -/
theorem digitsLoop_spec : ∀ (ds rest : List Char) (acc : Nat),
    (∀ c ∈ ds, c ∈ digitChars) →
    (match rest with
      | [] => True
      | c :: _ => toDigit 11 c = none) →
    digitsLoop acc (ds ++ rest) =
      (ds.foldl (fun a c => (a * 10 + (c.toNat - '0'.toNat)) % 4294967296) acc, rest) := by
  intro ds
  induction ds with
  | nil =>
    intro rest acc _ hstop
    cases rest with
    | nil => rfl
    | cons c rest' => simp [digitsLoop, hstop]
  | cons d ds ih =>
    intro rest acc hdig hstop
    have hd := toDigit_11_of_digit d (hdig d (by simp))
    simp only [List.cons_append, digitsLoop, hd, List.foldl_cons]
    exact ih rest _ (fun c hc => hdig c (by simp [hc])) hstop

/-- Folding the wrapping step equals folding the unbounded step and reducing
at the end. -/
theorem foldl_mod_eq : ∀ (ds : List Char) (acc : Nat),
    ds.foldl (fun a c => (a * 10 + (c.toNat - '0'.toNat)) % 4294967296) (acc % 4294967296) =
      (ds.foldl (fun a c => a * 10 + (c.toNat - '0'.toNat)) acc) % 4294967296 := by
  intro ds
  induction ds with
  | nil => intro acc; simp
  | cons d ds ih =>
    intro acc
    simp only [List.foldl_cons]
    have h1 : ((acc % 4294967296) * 10 + (d.toNat - '0'.toNat)) % 4294967296 =
        (acc * 10 + (d.toNat - '0'.toNat)) % 4294967296 := by omega
    rw [h1]
    exact ih (acc * 10 + (d.toNat - '0'.toNat))

/-- Running `lex_digits` on a nonempty decimal digit run followed by a non-digit
(in radix 11) stop character: the run is consumed in wrapping `u32`
arithmetic and cast to `i32`. -/
theorem lex_digits_spec : ∀ (ds rest : List Char),
    ds ≠ [] →
    (∀ c ∈ ds, c ∈ digitChars) →
    (match rest with
      | [] => True
      | c :: _ => toDigit 11 c = none) →
    lex_digits (ds ++ rest) =
      .ok (.Integer (toSigned (natValue ds % 4294967296)), rest) := by
  intro ds rest hne hdig hstop
  cases ds with
  | nil => exact absurd rfl hne
  | cons d ds' =>
    have hloop := digitsLoop_spec (d :: ds') rest 0 hdig hstop
    have hfold := foldl_mod_eq (d :: ds') 0
    rw [Nat.zero_mod] at hfold
    rw [hfold] at hloop
    simp only [List.cons_append] at hloop
    simp [lex_digits, hloop, natValue]

/-- The string-scan loop on a quote-free body followed by a closing quote:
the body is consumed verbatim and the quote terminates. -/
theorem strLoop_append : ∀ (body acc rest : List Char),
    (∀ c ∈ body, c ≠ '"') →
    strLoop acc (body ++ '"' :: rest) = .ok (.String (String.mk (acc ++ body)), rest) := by
  intro body
  induction body with
  | nil => intro acc rest _; simp [strLoop]
  | cons c body ih =>
    intro acc rest hq
    have hc : c ≠ '"' := hq c (by simp)
    simp only [List.cons_append, strLoop]
    rw [if_neg hc]
    refine (ih (acc ++ [c]) rest (fun c hc => hq c (by simp [hc]))).trans ?_
    simp

/-- The string-scan loop errors at end of input when no quote occurs. -/
theorem strLoop_no_quote : ∀ (body acc : List Char),
    (∀ c ∈ body, c ≠ '"') →
    strLoop acc body = .error .InvalidToken := by
  intro body
  induction body with
  | nil => intro acc _; rfl
  | cons c body ih =>
    intro acc hq
    have hc : c ≠ '"' := hq c (by simp)
    simp only [strLoop]
    rw [if_neg hc]
    exact ih _ (fun c hc => hq c (by simp [hc]))

/-- The scan loop never emits the end-of-input sentinel: it terminates the
loop instead of being pushed. -/
theorem lexLoop_no_sentinel : ∀ (fuel : Nat) (cs : List Char) (ts : List Token),
    lexLoop fuel cs = .ok ts → Token.NoMoreTokens ∉ ts := by
  intro fuel
  induction fuel with
  | zero => intro cs ts h; simp [lexLoop] at h
  | succ f ih =>
    intro cs ts h
    simp only [lexLoop] at h
    cases hn : next cs with
    | error e => rw [hn] at h; simp at h
    | ok p =>
      obtain ⟨t, rest⟩ := p
      rw [hn] at h
      simp only at h
      by_cases ht : t = Token.NoMoreTokens
      · rw [if_pos ht] at h
        simp only [Except.ok.injEq] at h
        subst h
        simp
      · rw [if_neg ht] at h
        cases hl : lexLoop f rest with
        | error e => rw [hl] at h; simp [Except.map] at h
        | ok ts' =>
          rw [hl] at h
          simp only [Except.map, Except.ok.injEq] at h
          subst h
          simp only [List.mem_cons, not_or]
          exact ⟨fun he => ht he.symm, ih rest ts' hl⟩

/-! ### Claim theorems -/

/-- C1: whenever `parse_object` accepts a nonempty object, the input
decomposes as `{`, the comma-separated renderings of the chain's pairs in
chain order, `}`, remainder — so the `Members` chain holds exactly the
source pairs, in source order, duplicates retained — and the chain is
right-recursive: its innermost (terminal) `Pair` link is the last pair in
source order. -/
theorem c1_members_chain_source_order :
    ∀ (ts : List Token) (m : Members) (rest : List Token),
      parse_object ts = .ok (.Nonempty m, rest) →
      ts = Token.ObjectStart :: (joinPairs (pairsOf m) ++ Token.ObjectEnd :: rest) ∧
      pairsOf m ≠ [] ∧
      (pairsOf m).getLast? = some (lastPair m) := by
  intro ts m rest h
  simp only [parse_object] at h
  have hs := (parseF_sound _).1 _ _ _ h
  refine ⟨?_, pairsOf_ne_nil m, getLast?_pairsOf m⟩
  rw [hs, ← membersTokens_eq_joinPairs]
  simp [objectTokens]

/-- Witness for C1 at the token sequence of `{"a":1,"a":2}`: the duplicate
key is retained as two pairs in source order, the last one innermost. -/
theorem c1_witness :
    [Token.ObjectStart, Token.String "a", Token.Colon, Token.Integer 1, Token.Comma,
        Token.String "a", Token.Colon, Token.Integer 2, Token.ObjectEnd] =
      Token.ObjectStart ::
        (joinPairs (pairsOf (Members.Pairs "a" (Value.Number (JSONNumber.Integer 1))
            (Members.Pair "a" (Value.Number (JSONNumber.Integer 2))))) ++
          Token.ObjectEnd :: []) ∧
    pairsOf (Members.Pairs "a" (Value.Number (JSONNumber.Integer 1))
        (Members.Pair "a" (Value.Number (JSONNumber.Integer 2)))) ≠ [] ∧
    (pairsOf (Members.Pairs "a" (Value.Number (JSONNumber.Integer 1))
        (Members.Pair "a" (Value.Number (JSONNumber.Integer 2))))).getLast? =
      some (lastPair (Members.Pairs "a" (Value.Number (JSONNumber.Integer 1))
        (Members.Pair "a" (Value.Number (JSONNumber.Integer 2))))) :=
  c1_members_chain_source_order _ _ _ (by rfl)

/-- C2 (code bug): the tokenizer is claimed to emit, for a fractional
numeral, the float parsed from the verbatim concatenation of the two digit
runs; the code instead joins the `to_string` images of the two accumulated
`i32` values, so fractional leading zeros are lost: lexing `1.05` emits the
float parsed from the text `"1.5"`, whose exact value 3/2 differs from
21/20, the value of `"1.05"`. -/
theorem c2_fractional_leading_zero_lost :
    lex ['1', '.', '0', '5'] = .ok [Token.Float "1.5"] ∧
    ¬ decEquiv (decValue "1.5") (decValue "1.05") :=
  ⟨rfl, by decide⟩

/-- C3 (code bug): a `.` followed by a non-digit such as `}` is claimed to
fail, but the code only detects end-of-input there (the `is_digit(10)`
result is discarded), so `1.}` lexes successfully as the float `1.0`
followed by `ObjectEnd`; the end-of-input half does fail as claimed. -/
theorem c3_dot_without_digit :
    lex ['1', '.', '}'] = .ok [Token.Float "1.0", Token.ObjectEnd] ∧
    lex ['1', '.'] = .error .InvalidToken :=
  ⟨rfl, rfl⟩

/-- C4 (code bug): digit accumulation is claimed to consume only decimal
digits and to fail on `1a`; the code accumulates with `to_digit(11)`, so the
letter `a` is consumed as the digit ten and `1a` lexes to `Integer 20`. -/
theorem c4_radix11_consumes_letter :
    lex ['1', 'a'] = .ok [Token.Integer 20] := rfl

/-- C5 counterexample: the claim says a quote preceded by a backslash does
not terminate the string, so lexing `"\"` (escaped quote, then end of input)
should fail; the code terminates the string at that quote and succeeds with
the one-character payload `\`. -/
theorem c5_counterexample :
    lex ['"', '\\', '"'] = .ok [Token.String "\\"] := rfl

/-- C5 (amended): the string scan consumes characters verbatim until the
next `"` regardless of any preceding backslash (backslashes are copied
literally and do not escape the quote), and reaching end-of-input before a
`"` is a lex error. -/
theorem c5_string_verbatim :
    ∀ (body rest : List Char),
      (∀ c ∈ body, c ≠ '"') →
      lex_string ('"' :: (body ++ '"' :: rest)) =
        .ok (.String (String.mk body), rest) ∧
      lex_string ('"' :: body) = .error .InvalidToken := by
  intro body rest hq
  constructor
  · simp only [lex_string]
    exact (strLoop_append body [] rest hq).trans (by simp)
  · simp only [lex_string]
    exact strLoop_no_quote body [] hq

/-- Witness for C5 at the body `a\` with trailing input `x`: the first
unescaped-or-not `"` terminates with payload `a\`, and the unterminated
prefix errors. -/
theorem c5_witness :
    lex_string ['"', 'a', '\\', '"', 'x'] = .ok (Token.String "a\\", ['x']) ∧
    lex_string ['"', 'a', '\\'] = .error .InvalidToken :=
  c5_string_verbatim ['a', '\\'] ['x'] (by decide)

/-- C6: a trailing comma is rejected: after a comma is consumed inside an
object (resp. array), the recursive `parse_members` (resp. `parse_elements`)
call fails with `ExpectedToken` on the closing delimiter, and in particular
the token sequence of `{"a":1,}` parses to the `ExpectedToken` error. -/
theorem c6_trailing_comma_rejected :
    (∀ (fuel : Nat) (rest : List Token),
      parse_membersF (fuel + 2) (Token.ObjectEnd :: rest) = .error .ExpectedToken) ∧
    (∀ (fuel : Nat) (rest : List Token),
      parse_elementsF (fuel + 2) (Token.ArrayEnd :: rest) = .error .ExpectedToken) ∧
    parse_object [Token.ObjectStart, Token.String "a", Token.Colon, Token.Integer 1,
      Token.Comma, Token.ObjectEnd] = .error .ExpectedToken := by
  refine ⟨?_, ?_, rfl⟩
  · intro fuel rest
    simp [parse_membersF, parse_pairF]
  · intro fuel rest
    simp [parse_elementsF, parse_valueF]

/-- C7: every accepted token sequence decomposes as consumed tokens plus
remainder, and the numeric tokens of the consumed prefix — with their
`Integer`/`Float` tags and payloads — are exactly the numeric leaves of the
resulting tree, in order: parsing never alters or coerces a numeric tag or
value. -/
theorem c7_numeric_tags_preserved :
    ∀ (ts : List Token) (o : Object) (rest : List Token),
      parse_object ts = .ok (o, rest) →
      ∃ consumed, ts = consumed ++ rest ∧ tokNums consumed = objNumLeaves o := by
  intro ts o rest h
  simp only [parse_object] at h
  exact ⟨objectTokens o, (parseF_sound _).1 _ _ _ h, tokNums_objectTokens o⟩

/-- Witness for C7 at `{"k":5,"f":1.5}`: one `Integer` and one `Float`
token, preserved as the two numeric leaves. -/
theorem c7_witness :
    ∃ consumed,
      [Token.ObjectStart, Token.String "k", Token.Colon, Token.Integer 5, Token.Comma,
          Token.String "f", Token.Colon, Token.Float "1.5", Token.ObjectEnd] =
        consumed ++ ([] : List Token) ∧
      tokNums consumed =
        objNumLeaves (Object.Nonempty (Members.Pairs "k" (Value.Number (JSONNumber.Integer 5))
          (Members.Pair "f" (Value.Number (JSONNumber.Float "1.5"))))) :=
  c7_numeric_tags_preserved _ _ _ (by rfl)

/-- C8: the end-of-input sentinel `NoMoreTokens` only terminates the scan
loop; it is never pushed, so it never appears in a successful lex result. -/
theorem c8_no_sentinel_in_output :
    ∀ (cs : List Char) (ts : List Token),
      lex cs = .ok ts → Token.NoMoreTokens ∉ ts :=
  fun _ _ h => lexLoop_no_sentinel _ _ _ h

/-- Witness for C8 at the input `{`. -/
theorem c8_witness : Token.NoMoreTokens ∉ [Token.ObjectStart] :=
  c8_no_sentinel_in_output ['{'] [Token.ObjectStart] rfl

/-- C9: digit accumulation is wrapping unsigned 32-bit arithmetic followed
by an `i32` cast: any decimal digit run — in particular one whose value is
at least 2^31 — lexes without an overflow error to the `Integer` token
holding its value reduced modulo 2^32 and reinterpreted as two's-complement
signed (possibly negative). -/
theorem c9_integer_wrapping :
    ∀ (ds rest : List Char),
      ds ≠ [] →
      (∀ c ∈ ds, c ∈ digitChars) →
      (match rest with
        | [] => True
        | c :: _ => toDigit 11 c = none) →
      2147483648 ≤ natValue ds →
      lex_digits (ds ++ rest) =
        .ok (.Integer (toSigned (natValue ds % 4294967296)), rest) :=
  fun ds rest h1 h2 h3 _ => lex_digits_spec ds rest h1 h2 h3

/-- Witness for C9 at the digit run `2147483648` (= 2^31): the emitted
token is `Integer (-2147483648)` and no error is reported. -/
theorem c9_witness :
    lex_digits (['2', '1', '4', '7', '4', '8', '3', '6', '4', '8'] ++ []) =
      .ok (.Integer (toSigned
        (natValue ['2', '1', '4', '7', '4', '8', '3', '6', '4', '8'] % 4294967296)), []) ∧
    toSigned (natValue ['2', '1', '4', '7', '4', '8', '3', '6', '4', '8'] % 4294967296) =
      -2147483648 :=
  ⟨c9_integer_wrapping _ _ (by decide) (by decide) trivial (by decide), by decide⟩

/-- C10: `parse_object` consumes exactly one complete object from the front
of its input: whatever it accepted, appending further tokens afterwards
neither changes the result nor consumes them; in particular
`ObjectStart, ObjectEnd, ObjectStart` parses to `Empty` with one token
left over. -/
theorem c10_prefix_parse :
    (∀ (ts : List Token) (o : Object) (rest extra : List Token),
      parse_object ts = .ok (o, rest) →
      parse_object (ts ++ extra) = .ok (o, rest ++ extra)) ∧
    parse_object [Token.ObjectStart, Token.ObjectEnd, Token.ObjectStart] =
      .ok (Object.Empty, [Token.ObjectStart]) := by
  constructor
  · intro ts o rest extra h
    simp only [parse_object] at h ⊢
    refine (parseF_extend (3 * ts.length + 3)).1 (3 * (ts ++ extra).length + 3)
      ts extra o rest ?_ h
    simp only [List.length_append]
    omega
  · rfl

/-- Witness for C10: the empty object followed by two extra tokens parses
to `Empty`, returning the extra tokens unconsumed. -/
theorem c10_witness :
    parse_object ([Token.ObjectStart, Token.ObjectEnd] ++
        [Token.ObjectStart, Token.ObjectStart]) =
      .ok (Object.Empty, [] ++ [Token.ObjectStart, Token.ObjectStart]) :=
  c10_prefix_parse.1 [Token.ObjectStart, Token.ObjectEnd] Object.Empty []
    [Token.ObjectStart, Token.ObjectStart] rfl

end JsonParse
